import Mathlib

/-!
# Verification of the SDRF TSV header-to-column metadata migration

Shallow embedding of `scripts/update_tsv_to_columns.py`.

Python strings are modelled as `List Char`; `str.split(sep)` over a
one-character separator is `List.splitOn sep` (both produce `n + 1` parts for
`n` separator occurrences, and a single empty part for the empty string);
`sep.join(parts)` is `List.intercalate [sep] parts`.  Python whitespace (for
`str.strip`) is modelled by `Char.isWhitespace` (space, tab, CR, LF), which
agrees with Python on all characters occurring in these files.  Python's
`re.match` of the anchored pattern hash-(\w+)=(.+) succeeds exactly when the
maximal run of word characters after the hash is non-empty and is followed by
an equals sign and a non-empty remainder (the greedy `\w+` cannot backtrack
into a successful match, since every shorter run is followed by another word
character); `\w` is modelled as ASCII alphanumeric or underscore.
-/

namespace SdrfTemplates

/-- Python `s.strip()`: remove leading and trailing whitespace. -/
def pyStrip (s : List Char) : List Char :=
  ((s.dropWhile Char.isWhitespace).reverse.dropWhile Char.isWhitespace).reverse

/-- Truthiness of `line.strip()` in a Python condition: the stripped string is
non-empty. -/
def stripTruthy (s : List Char) : Bool :=
  !(pyStrip s).isEmpty

/-- Python `line.startswith("#")`. -/
def startsWithHash : List Char → Bool
  | [] => false
  | c :: _ => c == '#'

/-- A character matched by `\w` (ASCII range). -/
def isWordChar (c : Char) : Bool :=
  c.isAlphanum || c == '_'

/-- `re.match` of the pattern hash-(\w+)=(.+) against a line (lines contain no
newline, so `.` matches every remaining character).  Returns the two capture
groups on success. -/
def matchKeyValue : List Char → Option (List Char × List Char)
  | [] => none
  | c :: rest =>
    let key := rest.takeWhile isWordChar
    let after := rest.dropWhile isWordChar
    if c = '#' ∧ after.head? = some '=' ∧ key ≠ [] ∧ after.tail ≠ [] then
      some (key, after.tail)
    else none

/-- The metadata dictionary built by `parse_headers`. -/
structure Metadata where
  version : List Char
  templates : List (List Char)
deriving DecidableEq, Repr

/-- The initial metadata dictionary of `parse_headers` (line 52-55 of the
script): default version `"v1.1.0"`, no templates. -/
def defaultMetadata : Metadata :=
  { version := "v1.1.0".data, templates := [] }

/-- One iteration of the `for line in lines` loop of `parse_headers`
(lines 58-67 of the script). -/
def headerStep (md : Metadata) (line : List Char) : Metadata :=
  if startsWithHash line then
    match matchKeyValue line with
    | some kv =>
      if kv.1 = "version".data then { md with version := kv.2 }
      else if kv.1 = "template".data then
        { md with templates := md.templates ++ [kv.2] }
      else md
    | none => md
  else md

/-- `parse_headers` on an already split line list. -/
def parse_headers_lines (lines : List (List Char)) : Metadata :=
  lines.foldl headerStep defaultMetadata

/-- `parse_headers(content)` (lines 50-69 of the script): split the content on
newlines and fold the header-comment scanner over every line. -/
def parse_headers (content : List Char) : Metadata :=
  parse_headers_lines (content.splitOn '\n')

/-- The condition of the header-row search (line 86 of the script):
`line.strip() and not line.startswith("#")`. -/
def isHeaderLine (l : List Char) : Bool :=
  stripTruthy l && !startsWithHash l

/-- The header-row search loop of `update_tsv_file` (lines 85-89): first line
(with its zero-based index, counting from `i`) whose stripped form is
non-empty and which does not start with a hash. -/
def findHeaderRow : List (List Char) → Nat → Option (Nat × List Char)
  | [], _ => none
  | l :: rest, i =>
    if isHeaderLine l then some (i, l) else findHeaderRow rest (i + 1)

/-- The literal `"comment[sdrf version]"`. -/
def vCol : List Char := "comment[sdrf version]".data

/-- The literal `"comment[sdrf template]"`. -/
def tCol : List Char := "comment[sdrf template]".data

/-- The literal `"comment[sdrf annotation tool]"`. -/
def toolCol : List Char := "comment[sdrf annotation tool]".data

/-- Python substring containment `sub in s` (contiguous occurrence). -/
def containsSub : List Char → List Char → Bool
  | [], sub => sub.isEmpty
  | c :: t, sub => sub.isPrefixOf (c :: t) || containsSub t sub

/-- The column-augmentation step of `update_tsv_file` (lines 98-115): the
three substring presence checks followed by the conditional appends, in the
fixed order version, template(s), tool. -/
def buildColumns (columns : List (List Char)) (metadata : Metadata) :
    List (List Char) :=
  let has_version := columns.any fun col => containsSub col vCol
  let has_template := columns.any fun col => containsSub col tCol
  let has_tool := columns.any fun col => containsSub col toolCol
  let c1 := if has_version then columns else columns ++ [vCol]
  let c2 :=
    if has_template then c1
    else if metadata.templates.isEmpty then c1 ++ [tCol]
    else c1 ++ metadata.templates.map fun _ => tCol
  if has_tool then c2 else c2 ++ [toolCol]

/-- The writing loop of `update_tsv_file` (lines 125-128): each line is
emitted followed by a newline. -/
def joinLines (ls : List (List Char)) : List Char :=
  ls.foldr (fun l acc => l ++ '\n' :: acc) []

/-- The content transformation of `update_tsv_file` (lines 72-130) on the
split line list: parse the metadata from every line, locate the header row
(returning `none`, i.e. Python `False` with no write, when there is none),
augment its columns, and emit the new header followed by every later
non-blank line.  `some c` is the content written back to the file. -/
def update_tsv_lines (lines : List (List Char)) : Option (List Char) :=
  let metadata := parse_headers_lines lines
  match findHeaderRow lines 0 with
  | none => none
  | some (header_idx, header_line) =>
    let columns := header_line.splitOn '\t'
    let new_columns := buildColumns columns metadata
    let new_header_line := List.intercalate ['\t'] new_columns
    let data_lines := lines.drop (header_idx + 1)
    some (new_header_line ++ '\n' :: joinLines (data_lines.filter stripTruthy))

/-- `update_tsv_file` as a content transformation: `some` of the new file
content on success, `none` when no header row is found (the function returns
`False` and performs no write). -/
def update_tsv_file (content : List Char) : Option (List Char) :=
  update_tsv_lines (content.splitOn '\n')

/-- The file content after running `update_tsv_file`: replaced on success,
untouched on failure. -/
def updatedFileContent (content : List Char) : List Char :=
  (update_tsv_file content).getD content

/-! ## Splitting and joining lemmas -/

lemma modifyHead_append {α : Type} (f : α → α) (l r : List α) (h : l ≠ []) :
    (l ++ r).modifyHead f = l.modifyHead f ++ r := by
  cases l with
  | nil => exact absurd rfl h
  | cons a t => rfl

lemma splitOnP_sep_append {α : Type} (p : α → Bool) (sep : α) (hsep : p sep = true)
    (a b : List α) :
    (a ++ sep :: b).splitOnP p = a.splitOnP p ++ b.splitOnP p := by
  induction a with
  | nil => simp [List.splitOnP_cons, hsep, List.splitOnP_nil]
  | cons c t ih =>
    rw [List.cons_append, List.splitOnP_cons, List.splitOnP_cons]
    by_cases hc : p c = true
    · rw [if_pos hc, if_pos hc, ih, List.cons_append]
    · rw [if_neg hc, if_neg hc, ih,
        modifyHead_append _ _ _ (List.splitOnP_ne_nil _ _)]

lemma splitOn_sep_append (sep : Char) (a b : List Char) :
    (a ++ sep :: b).splitOn sep = a.splitOn sep ++ b.splitOn sep := by
  simpa [List.splitOn] using
    splitOnP_sep_append (· == sep) sep (by simp) a b

lemma splitOn_eq_single {sep : Char} {l : List Char} (h : sep ∉ l) :
    l.splitOn sep = [l] := by
  simpa [List.splitOn] using
    List.splitOnP_eq_single (· == sep) l (by
      intro x hx
      simp only [beq_iff_eq]
      exact fun hxs => h (hxs ▸ hx))

lemma splitOn_ne_nil (sep : Char) (l : List Char) : l.splitOn sep ≠ [] :=
  List.splitOnP_ne_nil _ l

lemma mem_splitOnP_forall {α : Type} (p : α → Bool) :
    ∀ (s part : List α), part ∈ s.splitOnP p →
      part ⊆ s ∧ ∀ c ∈ part, p c = false := by
  intro s
  induction s with
  | nil =>
    intro part hp
    rw [List.splitOnP_nil, List.mem_singleton] at hp
    subst hp
    exact ⟨by simp, by simp⟩
  | cons c t ih =>
    intro part hp
    rw [List.splitOnP_cons] at hp
    by_cases hc : p c = true
    · rw [if_pos hc] at hp
      rcases List.mem_cons.mp hp with rfl | hp
      · exact ⟨by simp, by simp⟩
      · rcases ih part hp with ⟨hsub, hnot⟩
        exact ⟨fun x hx => List.mem_cons_of_mem _ (hsub hx), hnot⟩
    · rw [if_neg hc] at hp
      rcases hhd : t.splitOnP p with _ | ⟨hd, tl⟩
      · exact absurd hhd (List.splitOnP_ne_nil _ _)
      · rw [hhd] at hp
        rcases List.mem_cons.mp hp with rfl | hp
        · rcases ih hd (hhd ▸ List.mem_cons_self _ _) with ⟨hsub, hnot⟩
          refine ⟨?_, ?_⟩
          · intro x hx
            rcases List.mem_cons.mp hx with rfl | hx
            · exact List.mem_cons_self _ _
            · exact List.mem_cons_of_mem _ (hsub hx)
          · intro x hx
            rcases List.mem_cons.mp hx with rfl | hx
            · exact Bool.eq_false_iff.mpr hc
            · exact hnot x hx
        · rcases ih part (hhd ▸ List.mem_cons_of_mem _ hp) with ⟨hsub, hnot⟩
          exact ⟨fun x hx => List.mem_cons_of_mem _ (hsub hx), hnot⟩

lemma subset_of_mem_splitOn {sep : Char} {s part : List Char}
    (h : part ∈ s.splitOn sep) : part ⊆ s :=
  (mem_splitOnP_forall _ s part h).1

lemma sep_not_mem_of_mem_splitOn {sep : Char} {s part : List Char}
    (h : part ∈ s.splitOn sep) : sep ∉ part := by
  intro hmem
  have := (mem_splitOnP_forall (· == sep) s part h).2 sep hmem
  simp at this

lemma splitOn_joinLines (ls : List (List Char)) (h : ∀ l ∈ ls, '\n' ∉ l) :
    (joinLines ls).splitOn '\n' = ls ++ [[]] := by
  induction ls with
  | nil => simp [joinLines, List.splitOn, List.splitOnP_nil]
  | cons l t ih =>
    have hl : '\n' ∉ l := h l (List.mem_cons_self _ _)
    show ((l ++ '\n' :: joinLines t).splitOn '\n') = _
    rw [splitOn_sep_append, splitOn_eq_single hl,
      ih (fun x hx => h x (List.mem_cons_of_mem _ hx))]
    rfl

lemma intercalate_singleton {α : Type} (s a : List α) :
    List.intercalate s [a] = a := by
  simp [List.intercalate]

lemma intercalate_cons₂ {α : Type} (s a b : List α) (t : List (List α)) :
    List.intercalate s (a :: b :: t) = a ++ s ++ List.intercalate s (b :: t) := by
  simp [List.intercalate, List.intersperse, List.append_assoc]

lemma intercalate_append_of_ne_nil {α : Type} (s : List α) :
    ∀ (as bs : List (List α)), as ≠ [] → bs ≠ [] →
      List.intercalate s (as ++ bs) =
        List.intercalate s as ++ s ++ List.intercalate s bs := by
  intro as
  induction as with
  | nil => intro bs h _; exact absurd rfl h
  | cons a t ih =>
    intro bs _ hb
    cases t with
    | nil =>
      cases bs with
      | nil => exact absurd rfl hb
      | cons b tb =>
        calc List.intercalate s ([a] ++ b :: tb)
            = a ++ s ++ List.intercalate s (b :: tb) := intercalate_cons₂ s a b tb
          _ = List.intercalate s [a] ++ s ++ List.intercalate s (b :: tb) := by
              rw [intercalate_singleton]
    | cons a' t' =>
      calc List.intercalate s ((a :: a' :: t') ++ bs)
          = a ++ s ++ List.intercalate s ((a' :: t') ++ bs) :=
            intercalate_cons₂ s a a' (t' ++ bs)
        _ = a ++ s ++ (List.intercalate s (a' :: t') ++ s ++ List.intercalate s bs) := by
            rw [ih bs (by simp) hb]
        _ = List.intercalate s (a :: a' :: t') ++ s ++ List.intercalate s bs := by
            rw [intercalate_cons₂ s a a' t']
            simp [List.append_assoc]

lemma not_mem_intercalate {c sep : Char} (hc : c ≠ sep) :
    ∀ (ls : List (List Char)), (∀ l ∈ ls, c ∉ l) →
      c ∉ List.intercalate [sep] ls := by
  intro ls
  induction ls with
  | nil => intro _; simp [List.intercalate]
  | cons a t ih =>
    intro h
    cases t with
    | nil =>
      rw [intercalate_singleton]
      exact h a (List.mem_cons_self _ _)
    | cons b t' =>
      rw [intercalate_cons₂]
      intro hmem
      rcases List.mem_append.mp hmem with hmem | hmem
      · rcases List.mem_append.mp hmem with hmem | hmem
        · exact h a (List.mem_cons_self _ _) hmem
        · exact hc (List.mem_singleton.mp hmem)
      · exact ih (fun x hx => h x (List.mem_cons_of_mem _ hx)) hmem

/-! ## Stripping lemmas -/

lemma pyStrip_eq_nil_iff {s : List Char} :
    pyStrip s = [] ↔ ∀ c ∈ s, c.isWhitespace = true := by
  unfold pyStrip
  rw [List.reverse_eq_nil_iff, List.dropWhile_eq_nil_iff]
  constructor
  · intro h c hc
    rcases List.mem_append.mp
        ((List.takeWhile_append_dropWhile Char.isWhitespace s) ▸ hc) with hc | hc
    · exact List.mem_takeWhile_imp hc
    · exact h c (List.mem_reverse.mpr hc)
  · intro h c hc
    exact h c ((List.dropWhile_sublist _).subset (List.mem_reverse.mp hc))

lemma stripTruthy_eq_false_iff {s : List Char} :
    stripTruthy s = false ↔ ∀ c ∈ s, c.isWhitespace = true := by
  unfold stripTruthy
  rw [Bool.not_eq_false', List.isEmpty_iff, pyStrip_eq_nil_iff]

lemma stripTruthy_append_left {s : List Char} (h : stripTruthy s = true)
    (r : List Char) : stripTruthy (s ++ r) = true := by
  by_contra hc
  rw [Bool.not_eq_true, stripTruthy_eq_false_iff] at hc
  have hs : stripTruthy s = false := stripTruthy_eq_false_iff.mpr fun c hcs =>
    hc c (List.mem_append.mpr (Or.inl hcs))
  rw [hs] at h
  exact Bool.false_ne_true h

lemma stripTruthy_ne_nil {s : List Char} (h : stripTruthy s = true) : s ≠ [] := by
  rintro rfl
  simp [stripTruthy, pyStrip] at h

/-! ## Header-line and header-row lemmas -/

lemma isHeaderLine_eq_true_iff {l : List Char} :
    isHeaderLine l = true ↔ stripTruthy l = true ∧ startsWithHash l = false := by
  unfold isHeaderLine
  rw [Bool.and_eq_true, Bool.not_eq_true']

lemma startsWithHash_append {l : List Char} (h : l ≠ []) (r : List Char) :
    startsWithHash (l ++ r) = startsWithHash l := by
  cases l with
  | nil => exact absurd rfl h
  | cons c t => rfl

lemma findHeaderRow_none_iff {lines : List (List Char)} {k : Nat} :
    findHeaderRow lines k = none ↔ ∀ l ∈ lines, isHeaderLine l = false := by
  induction lines generalizing k with
  | nil => simp [findHeaderRow]
  | cons l t ih =>
    unfold findHeaderRow
    by_cases hl : isHeaderLine l = true
    · simp [hl, if_pos]
    · rw [if_neg hl, ih]
      rw [Bool.not_eq_true] at hl
      simp [hl]

lemma findHeaderRow_some {lines : List (List Char)} :
    ∀ {k i : Nat} {l : List Char}, findHeaderRow lines k = some (i, l) →
      k ≤ i ∧ lines.get? (i - k) = some l ∧ isHeaderLine l = true ∧
        ∀ j < i - k, ∀ lj, lines.get? j = some lj → isHeaderLine lj = false := by
  induction lines with
  | nil => intro k i l h; exact absurd h (by simp [findHeaderRow])
  | cons l0 t ih =>
    intro k i l h
    unfold findHeaderRow at h
    by_cases h0 : isHeaderLine l0 = true
    · rw [if_pos h0] at h
      obtain ⟨rfl, rfl⟩ : k = i ∧ l0 = l := by
        have := Option.some.inj h
        exact ⟨congrArg Prod.fst this, congrArg Prod.snd this⟩
      refine ⟨Nat.le_refl _, ?_, h0, ?_⟩
      · simp
      · intro j hj lj _
        omega
    · rw [if_neg h0] at h
      rcases ih h with ⟨hk, hget, hhl, hprev⟩
      have hki : k ≤ i := Nat.le_of_succ_le hk
      have hik : i - k = (i - (k + 1)) + 1 := by omega
      refine ⟨hki, ?_, hhl, ?_⟩
      · rw [hik]; simpa using hget
      · intro j hj lj hget'
        cases j with
        | zero =>
          rw [Bool.not_eq_true] at h0
          have hl : l0 = lj := by simpa using hget'
          exact hl ▸ h0
        | succ j' =>
          refine hprev j' (by omega) lj ?_
          simpa using hget'

lemma findHeaderRow_mem {lines : List (List Char)} :
    ∀ {k i : Nat} {l : List Char}, findHeaderRow lines k = some (i, l) →
      l ∈ lines ∧ isHeaderLine l = true := by
  induction lines with
  | nil => intro k i l h; exact absurd h (by simp [findHeaderRow])
  | cons l0 t ih =>
    intro k i l h
    unfold findHeaderRow at h
    by_cases h0 : isHeaderLine l0 = true
    · rw [if_pos h0] at h
      have : l0 = l := congrArg Prod.snd (Option.some.inj h)
      subst this
      exact ⟨List.mem_cons_self _ _, h0⟩
    · rw [if_neg h0] at h
      rcases ih h with ⟨hmem, hhl⟩
      exact ⟨List.mem_cons_of_mem _ hmem, hhl⟩

lemma findHeaderRow_append_skip {p : List (List Char)}
    (hp : ∀ l ∈ p, isHeaderLine l = false) (suffix : List (List Char)) :
    ∀ k, findHeaderRow (p ++ suffix) k = findHeaderRow suffix (k + p.length) := by
  induction p with
  | nil => intro k; simp
  | cons l t ih =>
    intro k
    have hl : isHeaderLine l = false := hp l (List.mem_cons_self _ _)
    have hstep : findHeaderRow ((l :: t) ++ suffix) k
        = findHeaderRow (t ++ suffix) (k + 1) := by
      rw [List.cons_append]
      show (if isHeaderLine l = true then some (k, l)
        else findHeaderRow (t ++ suffix) (k + 1)) = _
      rw [if_neg (by simp [hl])]
    rw [hstep, ih (fun x hx => hp x (List.mem_cons_of_mem _ hx)) (k + 1),
      List.length_cons]
    have harith : k + 1 + t.length = k + (t.length + 1) := by omega
    rw [harith]

lemma findHeaderRow_shift (lines : List (List Char)) :
    ∀ k, findHeaderRow lines k =
      (findHeaderRow lines 0).map (fun pr => (pr.1 + k, pr.2)) := by
  induction lines with
  | nil => intro k; simp [findHeaderRow]
  | cons l t ih =>
    intro k
    unfold findHeaderRow
    by_cases hl : isHeaderLine l = true
    · simp [hl]
    · rw [if_neg hl, if_neg hl, ih (k + 1), ih 1, Option.map_map]
      rcases findHeaderRow t 0 with _ | pr
      · rfl
      · show some (pr.1 + (k + 1), pr.2) = some (pr.1 + 1 + k, pr.2)
        rw [Nat.add_comm k 1, ← Nat.add_assoc]

/-! ## Substring-containment lemmas -/

lemma containsSub_refl (l : List Char) : containsSub l l = true := by
  cases l with
  | nil => rfl
  | cons c t =>
    unfold containsSub
    rw [Bool.or_eq_true]
    exact Or.inl (List.isPrefixOf_iff_prefix.mpr (List.prefix_refl _))

/-! ## Column-augmentation lemmas -/

/-- The appended template columns: one per parsed template, or a single one
when no templates were parsed. -/
lemma buildColumns_eq (cols : List (List Char)) (md : Metadata) :
    buildColumns cols md =
      cols ++ (if cols.any (fun col => containsSub col vCol) then [] else [vCol])
        ++ (if cols.any (fun col => containsSub col tCol) then []
            else List.replicate
              (if md.templates.isEmpty then 1 else md.templates.length) tCol)
        ++ (if cols.any (fun col => containsSub col toolCol) then []
            else [toolCol]) := by
  unfold buildColumns
  by_cases hv : cols.any (fun col => containsSub col vCol) = true <;>
    by_cases ht : cols.any (fun col => containsSub col tCol) = true <;>
      by_cases htool : cols.any (fun col => containsSub col toolCol) = true <;>
        by_cases he : md.templates.isEmpty = true <;>
          simp [hv, ht, htool, he, List.append_assoc, List.map_const']

lemma buildColumns_any_version (cols : List (List Char)) (md : Metadata) :
    (buildColumns cols md).any (fun col => containsSub col vCol) = true := by
  rw [buildColumns_eq]
  by_cases hv : cols.any (fun col => containsSub col vCol) = true
  · simp [List.any_append, hv]
  · rw [Bool.not_eq_true] at hv
    simp only [hv, if_neg Bool.false_ne_true, List.any_append, Bool.or_eq_true]
    refine Or.inl (Or.inl (Or.inr ?_))
    simp [containsSub_refl]

lemma buildColumns_any_template (cols : List (List Char)) (md : Metadata) :
    (buildColumns cols md).any (fun col => containsSub col tCol) = true := by
  rw [buildColumns_eq]
  by_cases ht : cols.any (fun col => containsSub col tCol) = true
  · simp [List.any_append, ht]
  · rw [Bool.not_eq_true] at ht
    simp only [ht, if_neg Bool.false_ne_true, List.any_append, Bool.or_eq_true]
    refine Or.inl (Or.inr ?_)
    rw [List.any_eq_true]
    refine ⟨tCol, List.mem_replicate.mpr ⟨?_, rfl⟩, containsSub_refl _⟩
    by_cases he : md.templates.isEmpty = true
    · simp [he]
    · rw [Bool.not_eq_true] at he
      simp only [he, if_neg Bool.false_ne_true]
      have hne : md.templates ≠ [] := by
        intro h0
        rw [h0] at he
        simp at he
      have := List.length_pos.mpr hne
      omega

lemma buildColumns_any_tool (cols : List (List Char)) (md : Metadata) :
    (buildColumns cols md).any (fun col => containsSub col toolCol) = true := by
  rw [buildColumns_eq]
  by_cases htool : cols.any (fun col => containsSub col toolCol) = true
  · simp [List.any_append, htool]
  · rw [Bool.not_eq_true] at htool
    simp only [htool, if_neg Bool.false_ne_true, List.any_append, Bool.or_eq_true]
    exact Or.inr (by simp [containsSub_refl])

lemma buildColumns_all_present (cols : List (List Char)) (md : Metadata)
    (hv : cols.any (fun col => containsSub col vCol) = true)
    (ht : cols.any (fun col => containsSub col tCol) = true)
    (htool : cols.any (fun col => containsSub col toolCol) = true) :
    buildColumns cols md = cols := by
  rw [buildColumns_eq]
  simp [hv, ht, htool]

lemma buildColumns_appended (cols : List (List Char)) (md : Metadata) :
    ∃ app, buildColumns cols md = cols ++ app ∧
      ∀ l ∈ app, l = vCol ∨ l = tCol ∨ l = toolCol := by
  refine ⟨_, by rw [buildColumns_eq, List.append_assoc, List.append_assoc], ?_⟩
  intro l hl
  rcases List.mem_append.mp hl with hl | hl
  · left
    split at hl
    · simp at hl
    · exact List.mem_singleton.mp hl
  rcases List.mem_append.mp hl with hl | hl
  · right; left
    split at hl
    · simp at hl
    · exact List.eq_of_mem_replicate hl
  · right; right
    split at hl
    · simp at hl
    · exact List.mem_singleton.mp hl

lemma buildColumns_templates_congr (cols : List (List Char)) {md1 md2 : Metadata}
    (h : md1.templates = md2.templates) :
    buildColumns cols md1 = buildColumns cols md2 := by
  rw [buildColumns_eq, buildColumns_eq, h]

/-! ## Shape of a successful rewrite -/

/-- The new header line written by a successful `update_tsv_file` run. -/
def newHeader (lines : List (List Char)) (hl : List Char) : List Char :=
  List.intercalate ['\t'] (buildColumns (hl.splitOn '\t') (parse_headers_lines lines))

lemma update_tsv_lines_eq_none {lines : List (List Char)}
    (h : findHeaderRow lines 0 = none) : update_tsv_lines lines = none := by
  unfold update_tsv_lines
  rw [h]

lemma update_tsv_lines_eq_some {lines : List (List Char)} {i : Nat}
    {hl : List Char} (h : findHeaderRow lines 0 = some (i, hl)) :
    update_tsv_lines lines =
      some (newHeader lines hl ++ '\n' ::
        joinLines ((lines.drop (i + 1)).filter stripTruthy)) := by
  unfold update_tsv_lines newHeader
  rw [h]

lemma newHeader_props {lines : List (List Char)} {hl : List Char}
    (hnl : ∀ l ∈ lines, '\n' ∉ l) (hmem : hl ∈ lines)
    (hhl : isHeaderLine hl = true) :
    startsWithHash (newHeader lines hl) = false ∧
      stripTruthy (newHeader lines hl) = true ∧
      '\n' ∉ newHeader lines hl ∧
      (newHeader lines hl).splitOn '\t'
        = buildColumns (hl.splitOn '\t') (parse_headers_lines lines) := by
  rcases isHeaderLine_eq_true_iff.mp hhl with ⟨hstrip, hhash⟩
  have hhl_nl : '\n' ∉ hl := hnl hl hmem
  set cols := hl.splitOn '\t' with hcols
  set md := parse_headers_lines lines with hmd
  rcases buildColumns_appended cols md with ⟨app, happ, happmem⟩
  have hncols_tab : ∀ l ∈ buildColumns cols md, '\t' ∉ l := by
    rw [happ]
    intro l hlmem
    rcases List.mem_append.mp hlmem with hlmem | hlmem
    · exact sep_not_mem_of_mem_splitOn hlmem
    · rcases happmem l hlmem with rfl | rfl | rfl <;> decide
  have hncols_nl : ∀ l ∈ buildColumns cols md, '\n' ∉ l := by
    rw [happ]
    intro l hlmem
    rcases List.mem_append.mp hlmem with hlmem | hlmem
    · exact fun hc => hhl_nl (subset_of_mem_splitOn hlmem hc)
    · rcases happmem l hlmem with rfl | rfl | rfl <;> decide
  have hcols_ne : cols ≠ [] := splitOn_ne_nil '\t' hl
  have hncols_ne : buildColumns cols md ≠ [] := by
    rw [happ]
    intro hc
    exact hcols_ne (List.append_eq_nil.mp hc).1
  have hsplit : (newHeader lines hl).splitOn '\t' = buildColumns cols md :=
    List.splitOn_intercalate _ '\t' hncols_tab hncols_ne
  have hjoin_cols : List.intercalate ['\t'] cols = hl :=
    List.intercalate_splitOn hl '\t'
  have hhead : ∃ r, newHeader lines hl = hl ++ r := by
    unfold newHeader
    rw [← hmd, ← hcols, happ]
    cases happ_nil : app with
    | nil => exact ⟨[], by simp [hjoin_cols]⟩
    | cons a t =>
      refine ⟨['\t'] ++ List.intercalate ['\t'] (a :: t), ?_⟩
      rw [intercalate_append_of_ne_nil _ cols (a :: t) hcols_ne (by simp),
        hjoin_cols, List.append_assoc]
  rcases hhead with ⟨r, hr⟩
  have hne : hl ≠ [] := stripTruthy_ne_nil hstrip
  refine ⟨?_, ?_, ?_, hsplit⟩
  · rw [hr, startsWithHash_append hne, hhash]
  · rw [hr]
    exact stripTruthy_append_left hstrip r
  · unfold newHeader
    rw [← hmd, ← hcols]
    exact not_mem_intercalate (by decide) _ hncols_nl

/-! ## Header-comment parsing lemmas -/

lemma matchKeyValue_some {l : List Char} {kv : List Char × List Char}
    (h : matchKeyValue l = some kv) : l = '#' :: (kv.1 ++ '=' :: kv.2) := by
  cases l with
  | nil => exact absurd h (by simp [matchKeyValue])
  | cons c rest =>
    simp only [matchKeyValue] at h
    rcases hd : rest.dropWhile isWordChar with _ | ⟨y, t⟩ <;> rw [hd] at h
    · simp at h
    · simp only [List.head?_cons, List.tail_cons, Option.some.injEq] at h
      split at h
      · rename_i hP
        rcases hP with ⟨hc, hy, _, _⟩
        injection h with h2
        subst h2
        show c :: rest = '#' :: (rest.takeWhile isWordChar ++ '=' :: t)
        rw [hc]
        congr 1
        conv_lhs => rw [← List.takeWhile_append_dropWhile isWordChar rest, hd]
        rw [hy]
      · exact absurd h (by simp)

lemma matchKeyValue_version_append (v : List Char) :
    matchKeyValue ("#version=".data ++ v) =
      if v.isEmpty then none else some ("version".data, v) := by
  cases v <;> rfl

lemma startsWithHash_version_append (v : List Char) :
    startsWithHash ("#version=".data ++ v) = true := rfl

lemma headerStep_version_line {md : Metadata} {l : List Char}
    (h : ("#version=".data).isPrefixOf l = true) :
    (headerStep md l).templates = md.templates := by
  obtain ⟨v, rfl⟩ := List.isPrefixOf_iff_prefix.mp h
  unfold headerStep
  rw [startsWithHash_version_append, if_pos rfl, matchKeyValue_version_append]
  by_cases hv : v.isEmpty = true
  · simp [hv]
  · rw [Bool.not_eq_true] at hv
    simp [hv]

lemma headerStep_version_eq {md : Metadata} {l : List Char}
    (h : ¬ ("#version=".data).isPrefixOf l = true) :
    (headerStep md l).version = md.version := by
  unfold headerStep
  by_cases hh : startsWithHash l = true
  · cases hm : matchKeyValue l with
    | none => simp [hh, hm]
    | some kv =>
      by_cases hk : kv.1 = "version".data
      · exact absurd (List.isPrefixOf_iff_prefix.mpr
          ⟨kv.2, by rw [matchKeyValue_some hm, hk]; rfl⟩) h
      · by_cases hk2 : kv.1 = "template".data <;> simp [hh, hm, hk, hk2]
  · simp [hh]

lemma foldl_headerStep_version (lines : List (List Char)) :
    ∀ md : Metadata, (∀ l ∈ lines, ¬ ("#version=".data).isPrefixOf l = true) →
      (lines.foldl headerStep md).version = md.version := by
  induction lines with
  | nil => intro md _; rfl
  | cons l t ih =>
    intro md h
    show ((t.foldl headerStep (headerStep md l)).version = md.version)
    rw [ih _ (fun x hx => h x (List.mem_cons_of_mem _ hx)),
      headerStep_version_eq (h l (List.mem_cons_self _ _))]

lemma headerStep_templates_congr {md1 md2 : Metadata}
    (h : md1.templates = md2.templates) (l : List Char) :
    (headerStep md1 l).templates = (headerStep md2 l).templates := by
  unfold headerStep
  by_cases hh : startsWithHash l = true
  · cases hm : matchKeyValue l with
    | none => simp [hh, hm, h]
    | some kv =>
      by_cases hk : kv.1 = "version".data
      · simp [hh, hm, hk, h]
      · by_cases hk2 : kv.1 = "template".data <;> simp [hh, hm, hk, hk2, h]
  · simp [hh, h]

lemma foldl_headerStep_templates_congr (lines : List (List Char)) :
    ∀ {md1 md2 : Metadata}, md1.templates = md2.templates →
      (lines.foldl headerStep md1).templates
        = (lines.foldl headerStep md2).templates := by
  induction lines with
  | nil => intro md1 md2 h; exact h
  | cons l t ih =>
    intro md1 md2 h
    exact ih (headerStep_templates_congr h l)

/-! ## Claim theorems -/

/-- C1: on the document `#version=1.0.0`, `#template=plants`, header row
`source name<TAB>characteristics[organism]`, data row `sample1<TAB>Arabidopsis`
and a trailing blank line, the rewrite produces exactly the expected output:
the header row gains the three metadata columns, the data row is kept, the
comments and the blank line are dropped. -/
theorem claim1_scenario :
    update_tsv_file
      ("#version=1.0.0\n#template=plants\nsource name\tcharacteristics[organism]\nsample1\tArabidopsis\n\n".data)
      = some
      ("source name\tcharacteristics[organism]\tcomment[sdrf version]\tcomment[sdrf template]\tcomment[sdrf annotation tool]\nsample1\tArabidopsis\n".data) := by
  decide

/-- C2: on every document whose lines are all empty or hash-prefixed, the
rewrite fails (`update_tsv_file` returns `False`, modelled as `none`), so no
write happens and the file content is unchanged. -/
theorem claim2_no_header_row (content : List Char)
    (h : ∀ l ∈ content.splitOn '\n', l = [] ∨ startsWithHash l = true) :
    update_tsv_file content = none ∧ updatedFileContent content = content := by
  have hfind : findHeaderRow (content.splitOn '\n') 0 = none := by
    rw [findHeaderRow_none_iff]
    intro l hl
    rcases h l hl with rfl | hh
    · rfl
    · simp [isHeaderLine, hh]
  have hnone : update_tsv_file content = none := update_tsv_lines_eq_none hfind
  refine ⟨hnone, ?_⟩
  unfold updatedFileContent
  rw [hnone]
  rfl

/-- Witness for C2 at the concrete all-comment document `#a\n#b`. -/
theorem claim2_no_header_row_witness :
    update_tsv_file ("#a\n#b".data) = none ∧
      updatedFileContent ("#a\n#b".data) = "#a\n#b".data :=
  claim2_no_header_row ("#a\n#b".data) (by decide)

/-- C3 counterexample: in the document whose lines are `" "` (one space) and
`"a"`, line 0 is non-empty without trimming and does not start with `#`, yet
the header-row search skips it (because the code tests `line.strip()`) and
returns index 1. -/
theorem claim3_counterexample :
    " ".data ≠ ([] : List Char) ∧ startsWithHash (" ".data) = false ∧
      findHeaderRow ((" \na".data).splitOn '\n') 0 = some (1, "a".data) := by
  decide

/-- C3 amended: the header-row search returns the zero-based index and
content of the first line that is non-empty *after stripping whitespace* and
does not start with `#`; a whitespace-only line does not qualify.  It returns
`none` exactly when no line qualifies. -/
theorem claim3_amended (lines : List (List Char)) :
    (findHeaderRow lines 0 = none ↔ ∀ l ∈ lines, isHeaderLine l = false) ∧
      ∀ i l, findHeaderRow lines 0 = some (i, l) →
        lines.get? i = some l ∧ stripTruthy l = true ∧
          startsWithHash l = false ∧
          ∀ j < i, ∀ lj, lines.get? j = some lj →
            stripTruthy lj = false ∨ startsWithHash lj = true := by
  refine ⟨findHeaderRow_none_iff, ?_⟩
  intro i l h
  rcases findHeaderRow_some h with ⟨-, hget, hhl, hprev⟩
  rw [Nat.sub_zero] at hget hprev
  rcases isHeaderLine_eq_true_iff.mp hhl with ⟨h1, h2⟩
  refine ⟨hget, h1, h2, ?_⟩
  intro j hj lj hlj
  have hfalse := hprev j hj lj hlj
  by_cases hs : stripTruthy lj = true
  · right
    unfold isHeaderLine at hfalse
    rw [hs, Bool.true_and, Bool.not_eq_false'] at hfalse
    exact hfalse
  · exact Or.inl (Bool.not_eq_true _ ▸ hs)

/-- Witness for C3 amended on the document with lines `" "` and `"a"`: the
returned line is at index 1 with the header-line property, and the skipped
line 0 fails the stripped-non-empty-or-no-hash test. -/
theorem claim3_amended_witness :
    ([" ".data, "a".data].get? 1 = some ("a".data) ∧
        stripTruthy ("a".data) = true) ∧
      (stripTruthy (" ".data) = false ∨ startsWithHash (" ".data) = true) :=
  ⟨⟨((claim3_amended [" ".data, "a".data]).2 1 ("a".data) (by decide)).1,
    ((claim3_amended [" ".data, "a".data]).2 1 ("a".data) (by decide)).2.1⟩,
    ((claim3_amended [" ".data, "a".data]).2 1 ("a".data) (by decide)).2.2.2
      0 (by decide) (" ".data) (by decide)⟩

/-- C6: `parse_headers` on the four-line comment document returns version
`2.3.0` and the templates `human`, `cell-lines` in order, ignoring the
`#bogus=` line; and on any document with no `#version=` line it returns the
default version `v1.1.0`. -/
theorem claim6_parse_headers :
    parse_headers
        ("#version=2.3.0\n#template=human\n#template=cell-lines\n#bogus=xyz".data)
        = { version := "2.3.0".data,
            templates := ["human".data, "cell-lines".data] } ∧
      ∀ content : List Char,
        (∀ l ∈ content.splitOn '\n',
          ¬ ("#version=".data).isPrefixOf l = true) →
        (parse_headers content).version = "v1.1.0".data := by
  refine ⟨by decide, ?_⟩
  intro content h
  show ((content.splitOn '\n').foldl headerStep defaultMetadata).version = _
  rw [foldl_headerStep_version _ defaultMetadata h]
  rfl

/-- Witness for C6's default-version part on the document `hello`. -/
theorem claim6_parse_headers_witness :
    (parse_headers ("hello".data)).version = "v1.1.0".data :=
  claim6_parse_headers.2 ("hello".data) (by decide)

/-- C7 counterexample: the column `comment[sdrf version range]` does *not*
contain the substring `comment[sdrf version]` (the closing bracket does not
match), so contrary to the claim's example it does not suppress the append:
the canonical version column is still added. -/
theorem claim7_counterexample :
    containsSub ("comment[sdrf version range]".data) vCol = false ∧
      buildColumns ["comment[sdrf version range]".data] defaultMetadata
        = ["comment[sdrf version range]".data, vCol, tCol, toolCol] := by
  decide

/-- C7 amended: the presence checks use substring containment — whenever some
existing column contains the literal substring for a metadata type (for the
version check, e.g. a column named `xcomment[sdrf version]y`), no column of
that type is appended; the existing columns are kept as the front of the
result in all cases. -/
theorem claim7_amended (cols : List (List Char)) (md : Metadata) :
    ((cols.any fun col => containsSub col vCol) = true →
      (buildColumns cols md).take cols.length = cols ∧
        vCol ∉ (buildColumns cols md).drop cols.length) ∧
    ((cols.any fun col => containsSub col tCol) = true →
      (buildColumns cols md).take cols.length = cols ∧
        tCol ∉ (buildColumns cols md).drop cols.length) ∧
    ((cols.any fun col => containsSub col toolCol) = true →
      (buildColumns cols md).take cols.length = cols ∧
        toolCol ∉ (buildColumns cols md).drop cols.length) := by
  rcases buildColumns_appended cols md with ⟨app, happ, happmem⟩
  have htake : (buildColumns cols md).take cols.length = cols := by
    rw [happ, List.take_left]
  have hdrop : (buildColumns cols md).drop cols.length = app := by
    rw [happ, List.drop_left]
  refine ⟨fun hv => ⟨htake, ?_⟩, fun ht => ⟨htake, ?_⟩, fun htool => ⟨htake, ?_⟩⟩
  · rw [hdrop]
    intro hmem
    have heq := buildColumns_eq cols md
    rw [if_pos hv, List.append_nil, List.append_assoc] at heq
    have happ2 : app = (if (cols.any fun col => containsSub col tCol) = true
        then []
        else List.replicate
          (if md.templates.isEmpty then 1 else md.templates.length) tCol)
        ++ (if (cols.any fun col => containsSub col toolCol) = true
            then [] else [toolCol]) :=
      List.append_cancel_left (happ ▸ heq)
    rw [happ2] at hmem
    rcases List.mem_append.mp hmem with hm | hm
    · split at hm
      · simp at hm
      · exact absurd (List.eq_of_mem_replicate hm) (by decide)
    · split at hm
      · simp at hm
      · exact absurd (List.mem_singleton.mp hm) (by decide)
  · rw [hdrop]
    intro hmem
    have heq := buildColumns_eq cols md
    rw [if_pos ht, List.append_nil, List.append_assoc] at heq
    have happ2 : app = (if (cols.any fun col => containsSub col vCol) = true
        then [] else [vCol])
        ++ (if (cols.any fun col => containsSub col toolCol) = true
            then [] else [toolCol]) :=
      List.append_cancel_left (happ ▸ heq)
    rw [happ2] at hmem
    rcases List.mem_append.mp hmem with hm | hm
    · split at hm
      · simp at hm
      · exact absurd (List.mem_singleton.mp hm) (by decide)
    · split at hm
      · simp at hm
      · exact absurd (List.mem_singleton.mp hm) (by decide)
  · rw [hdrop]
    intro hmem
    have heq := buildColumns_eq cols md
    rw [if_pos htool, List.append_nil, List.append_assoc] at heq
    have happ2 : app = (if (cols.any fun col => containsSub col vCol) = true
        then [] else [vCol])
        ++ (if (cols.any fun col => containsSub col tCol) = true
            then []
            else List.replicate
              (if md.templates.isEmpty then 1 else md.templates.length) tCol) :=
      List.append_cancel_left (happ ▸ heq)
    rw [happ2] at hmem
    rcases List.mem_append.mp hmem with hm | hm
    · split at hm
      · simp at hm
      · exact absurd (List.mem_singleton.mp hm) (by decide)
    · split at hm
      · simp at hm
      · exact absurd (List.eq_of_mem_replicate hm) (by decide)

/-- Witness for C7 amended: with the three canonical columns already present,
none of them is appended again. -/
theorem claim7_amended_witness :
    ((buildColumns [vCol, tCol, toolCol] defaultMetadata).take
          ([vCol, tCol, toolCol].length) = [vCol, tCol, toolCol] ∧
        vCol ∉ (buildColumns [vCol, tCol, toolCol] defaultMetadata).drop
          ([vCol, tCol, toolCol].length)) ∧
      ((buildColumns [vCol, tCol, toolCol] defaultMetadata).take
          ([vCol, tCol, toolCol].length) = [vCol, tCol, toolCol] ∧
        tCol ∉ (buildColumns [vCol, tCol, toolCol] defaultMetadata).drop
          ([vCol, tCol, toolCol].length)) ∧
      ((buildColumns [vCol, tCol, toolCol] defaultMetadata).take
          ([vCol, tCol, toolCol].length) = [vCol, tCol, toolCol] ∧
        toolCol ∉ (buildColumns [vCol, tCol, toolCol] defaultMetadata).drop
          ([vCol, tCol, toolCol].length)) :=
  ⟨(claim7_amended [vCol, tCol, toolCol] defaultMetadata).1 (by decide),
    (claim7_amended [vCol, tCol, toolCol] defaultMetadata).2.1 (by decide),
    (claim7_amended [vCol, tCol, toolCol] defaultMetadata).2.2 (by decide)⟩

/-- C8: when no existing column satisfies the template presence check, one
`comment[sdrf template]` column is appended per parsed template (and exactly
one when no templates were parsed), and the appended columns come after all
existing columns in the fixed order version, template(s), tool. -/
theorem claim8_template_columns (cols : List (List Char)) (md : Metadata)
    (ht : (cols.any fun col => containsSub col tCol) = false) :
    buildColumns cols md =
      cols ++ (if (cols.any fun col => containsSub col vCol) = true
          then [] else [vCol])
        ++ List.replicate
          (if md.templates.isEmpty then 1 else md.templates.length) tCol
        ++ (if (cols.any fun col => containsSub col toolCol) = true
            then [] else [toolCol]) := by
  rw [buildColumns_eq, ht, if_neg Bool.false_ne_true]

/-- Witness for C8: two parsed templates yield two appended template columns,
between the version and the tool columns. -/
theorem claim8_template_columns_witness :
    (["a".data].any fun col => containsSub col tCol) = false ∧
      buildColumns ["a".data]
          { version := "v".data, templates := ["x".data, "y".data] }
        = ["a".data, vCol, tCol, tCol, toolCol] :=
  ⟨by decide, by
    rw [claim8_template_columns ["a".data]
      { version := "v".data, templates := ["x".data, "y".data] } (by decide)]
    decide⟩

/-- C4 counterexample: in `a\n#version=9` the `#version=` line sits at index
1, after the header row (index 0), yet it changes the parse result; likewise
`#template=` lines after the header row change the rewrite output. -/
theorem claim4_counterexample :
    findHeaderRow (("a\n#version=9".data).splitOn '\n') 0 = some (0, "a".data) ∧
      parse_headers ("a\n#version=9".data) ≠ parse_headers ("a".data) ∧
      update_tsv_file ("a\n#template=x\n#template=y".data)
        ≠ update_tsv_file ("a".data) := by
  decide

/-- C4 amended: `parse_headers` scans every line of the document, including
lines at or after the header row; appending a `#version=` line with a
non-empty value at the end of any document sets the parsed version to that
value. -/
theorem claim4_amended (content v : List Char) (hv : v ≠ []) (hnl : '\n' ∉ v) :
    (parse_headers (content ++ '\n' :: ("#version=".data ++ v))).version
      = v := by
  show (((content ++ '\n' :: ("#version=".data ++ v)).splitOn '\n').foldl
    headerStep defaultMetadata).version = v
  rw [splitOn_sep_append]
  have hb : ("#version=".data ++ v).splitOn '\n' = ["#version=".data ++ v] :=
    splitOn_eq_single (by
      intro hc
      rcases List.mem_append.mp hc with hc | hc
      · exact absurd hc (by decide)
      · exact hnl hc)
  rw [hb, List.foldl_append]
  show (headerStep _ ("#version=".data ++ v)).version = v
  unfold headerStep
  rw [startsWithHash_version_append, if_pos rfl, matchKeyValue_version_append]
  have hve : v.isEmpty = false := by
    cases v with
    | nil => exact absurd rfl hv
    | cons c t => rfl
  rw [hve]
  simp

/-- Witness for C4 amended: appending `#version=9` after the header row of
the document `a` makes the parsed version `9`. -/
theorem claim4_amended_witness :
    (parse_headers ("a".data ++ '\n' :: ("#version=".data ++ "9".data))).version
      = "9".data :=
  claim4_amended ("a".data) ("9".data) (by decide) (by decide)

/-- C5 counterexample: on `a\n#c` the rewrite succeeds and the line `#c`,
which sits after the header row, is kept verbatim, so the output does contain
a line starting with `#`. -/
theorem claim5_counterexample :
    update_tsv_file ("a\n#c".data)
      = some ("a\tcomment[sdrf version]\tcomment[sdrf template]\tcomment[sdrf annotation tool]\n#c\n".data) ∧
      "#c".data ∈ (("a\tcomment[sdrf version]\tcomment[sdrf template]\tcomment[sdrf annotation tool]\n#c\n".data).splitOn '\n') ∧
      startsWithHash ("#c".data) = true := by
  decide

/-- C5 amended: after a successful rewrite, every line of the output that
starts with `#` is one of the input lines strictly after the header row
(comment lines before the header row are removed; the new header line does
not start with `#`). -/
theorem claim5_amended (content out : List Char) (i : Nat) (hl : List Char)
    (h : update_tsv_file content = some out)
    (hfind : findHeaderRow (content.splitOn '\n') 0 = some (i, hl)) :
    ∀ l ∈ out.splitOn '\n', startsWithHash l = true →
      l ∈ (content.splitOn '\n').drop (i + 1) := by
  have hnl : ∀ x ∈ content.splitOn '\n', '\n' ∉ x := fun x hx =>
    sep_not_mem_of_mem_splitOn hx
  have hout := update_tsv_lines_eq_some hfind
  rw [show update_tsv_file content = update_tsv_lines (content.splitOn '\n')
      from rfl, hout] at h
  have hrw := Option.some.inj h
  rcases findHeaderRow_mem hfind with ⟨hmem, hhl⟩
  rcases newHeader_props hnl hmem hhl with ⟨hhash, hstrip, hnh_nl, -⟩
  have hkept_nl : ∀ x ∈ ((content.splitOn '\n').drop (i + 1)).filter stripTruthy,
      '\n' ∉ x := fun x hx =>
    hnl x (List.drop_subset _ _ (List.mem_filter.mp hx).1)
  have hsplit_out : out.splitOn '\n'
      = newHeader (content.splitOn '\n') hl ::
          (((content.splitOn '\n').drop (i + 1)).filter stripTruthy ++ [[]]) := by
    rw [← hrw, splitOn_sep_append, splitOn_eq_single hnh_nl,
      splitOn_joinLines _ hkept_nl]
    rfl
  intro l hlmem hhash_l
  rw [hsplit_out] at hlmem
  rcases List.mem_cons.mp hlmem with rfl | hlmem
  · rw [hhash] at hhash_l
    exact absurd hhash_l Bool.false_ne_true
  rcases List.mem_append.mp hlmem with hlmem | hlmem
  · exact (List.mem_filter.mp hlmem).1
  · rw [List.mem_singleton.mp hlmem] at hhash_l
    exact absurd hhash_l (by decide)

/-- Witness for C5 amended at the document `a\n#c`: the surviving comment
line `#c` is one of the input lines after the header row. -/
theorem claim5_amended_witness :
    "#c".data ∈ (("a\n#c".data).splitOn '\n').drop (0 + 1) :=
  claim5_amended ("a\n#c".data)
    ("a\tcomment[sdrf version]\tcomment[sdrf template]\tcomment[sdrf annotation tool]\n#c\n".data)
    0 ("a".data) (by decide) (by decide) ("#c".data) (by decide) (by decide)

/-- C9: the rewrite is idempotent on every document with a header row:
rewriting the output of a successful rewrite returns that output unchanged. -/
theorem claim9_idempotent (content out : List Char)
    (h : update_tsv_file content = some out) :
    update_tsv_file out = some out := by
  have hnl : ∀ x ∈ content.splitOn '\n', '\n' ∉ x := fun x hx =>
    sep_not_mem_of_mem_splitOn hx
  rw [show update_tsv_file content = update_tsv_lines (content.splitOn '\n')
      from rfl] at h
  cases hfind : findHeaderRow (content.splitOn '\n') 0 with
  | none =>
    rw [update_tsv_lines_eq_none hfind] at h
    exact absurd h (by simp)
  | some pr =>
    obtain ⟨i, hl⟩ := pr
    rw [update_tsv_lines_eq_some hfind] at h
    have hrw := Option.some.inj h
    rcases findHeaderRow_mem hfind with ⟨hmem, hhl⟩
    rcases newHeader_props hnl hmem hhl with ⟨hhash, hstrip, hnh_nl, hsplit_tab⟩
    have hkept_nl :
        ∀ x ∈ ((content.splitOn '\n').drop (i + 1)).filter stripTruthy,
          '\n' ∉ x := fun x hx =>
      hnl x (List.drop_subset _ _ (List.mem_filter.mp hx).1)
    have hsplit_out : out.splitOn '\n'
        = newHeader (content.splitOn '\n') hl ::
            (((content.splitOn '\n').drop (i + 1)).filter stripTruthy
              ++ [[]]) := by
      rw [← hrw, splitOn_sep_append, splitOn_eq_single hnh_nl,
        splitOn_joinLines _ hkept_nl]
      rfl
    show update_tsv_lines (out.splitOn '\n') = some out
    rw [hsplit_out]
    have hfind2 : findHeaderRow
        (newHeader (content.splitOn '\n') hl ::
          (((content.splitOn '\n').drop (i + 1)).filter stripTruthy ++ [[]]))
        0 = some (0, newHeader (content.splitOn '\n') hl) := by
      show (if isHeaderLine (newHeader (content.splitOn '\n') hl) = true
        then some (0, newHeader (content.splitOn '\n') hl) else _) = _
      rw [if_pos (isHeaderLine_eq_true_iff.mpr ⟨hstrip, hhash⟩)]
    rw [update_tsv_lines_eq_some hfind2]
    have hnh2 : newHeader
        (newHeader (content.splitOn '\n') hl ::
          (((content.splitOn '\n').drop (i + 1)).filter stripTruthy ++ [[]]))
        (newHeader (content.splitOn '\n') hl)
        = newHeader (content.splitOn '\n') hl := by
      show List.intercalate ['\t']
          (buildColumns ((newHeader (content.splitOn '\n') hl).splitOn '\t')
            (parse_headers_lines
              (newHeader (content.splitOn '\n') hl ::
                (((content.splitOn '\n').drop (i + 1)).filter stripTruthy
                  ++ [[]]))))
        = newHeader (content.splitOn '\n') hl
      rw [hsplit_tab,
        buildColumns_all_present _ _
          (buildColumns_any_version _ _)
          (buildColumns_any_template _ _)
          (buildColumns_any_tool _ _)]
      rfl
    have hdata : ((newHeader (content.splitOn '\n') hl ::
          (((content.splitOn '\n').drop (i + 1)).filter stripTruthy
            ++ [[]])).drop (0 + 1)).filter stripTruthy
        = ((content.splitOn '\n').drop (i + 1)).filter stripTruthy := by
      show ((((content.splitOn '\n').drop (i + 1)).filter stripTruthy
        ++ [[]]).filter stripTruthy) = _
      rw [List.filter_append, List.filter_filter]
      have h2 : ([([] : List Char)]).filter stripTruthy = [] := by decide
      rw [h2, List.append_nil]
      exact List.filter_congr fun a _ => by
        cases hsa : stripTruthy a <;> rfl
    rw [hnh2, hdata, hrw]

/-- Witness for C9: rewriting the rewrite of the one-line document `a`
returns the same content again. -/
theorem claim9_idempotent_witness :
    update_tsv_file
        ("a\tcomment[sdrf version]\tcomment[sdrf template]\tcomment[sdrf annotation tool]\n".data)
      = some
        ("a\tcomment[sdrf version]\tcomment[sdrf template]\tcomment[sdrf annotation tool]\n".data) :=
  claim9_idempotent ("a".data) _ (by decide)

/-- C10 counterexample: the documents `a\n#version=1` and `a\n#version=2`
differ only in the value of their `#version=` comment line, yet the rewrite
outputs differ, because that line sits after the header row and is kept
verbatim as a data line. -/
theorem claim10_counterexample :
    update_tsv_file ("a\n#version=1".data)
      ≠ update_tsv_file ("a\n#version=2".data) := by
  decide

/-- Two lines that are either equal or both `#version=` comment lines. -/
def versionRelated (l1 l2 : List Char) : Prop :=
  l1 = l2 ∨ (("#version=".data).isPrefixOf l1 = true ∧
    ("#version=".data).isPrefixOf l2 = true)

instance versionRelatedDecidable (l1 l2 : List Char) :
    Decidable (versionRelated l1 l2) :=
  decidable_of_iff
    (l1 = l2 ∨ (("#version=".data).isPrefixOf l1 = true ∧
      ("#version=".data).isPrefixOf l2 = true)) Iff.rfl

lemma isHeaderLine_false_of_version {l : List Char}
    (h : ("#version=".data).isPrefixOf l = true) :
    isHeaderLine l = false := by
  obtain ⟨v, rfl⟩ := List.isPrefixOf_iff_prefix.mp h
  unfold isHeaderLine
  rw [startsWithHash_version_append]
  simp

lemma skip_of_versionRelated : ∀ (p1 p2 : List (List Char)),
    p1.length = p2.length →
    (∀ pr ∈ p1.zip p2, versionRelated pr.1 pr.2) →
    (∀ l ∈ p1, isHeaderLine l = false) →
    ∀ l ∈ p2, isHeaderLine l = false := by
  intro p1
  induction p1 with
  | nil =>
    intro p2 hlen _ _ l hl
    rw [List.eq_nil_of_length_eq_zero hlen.symm] at hl
    simp at hl
  | cons a t ih =>
    intro p2 hlen hrel hskip l hl
    cases p2 with
    | nil => simp at hl
    | cons b tb =>
      have hhead : versionRelated a b := hrel (a, b) (by
        rw [List.zip_cons_cons]
        exact List.mem_cons_self _ _)
      have htail : ∀ pr ∈ t.zip tb, versionRelated pr.1 pr.2 := fun pr hpr =>
        hrel pr (by
          rw [List.zip_cons_cons]
          exact List.mem_cons_of_mem _ hpr)
      rcases List.mem_cons.mp hl with rfl | hl
      · rcases hhead with rfl | ⟨-, h2⟩
        · exact hskip _ (List.mem_cons_self _ _)
        · exact isHeaderLine_false_of_version h2
      · exact ih tb (by simpa using hlen) htail
          (fun x hx => hskip x (List.mem_cons_of_mem _ hx)) l hl

lemma foldl_templates_of_versionRelated : ∀ (p1 p2 : List (List Char)),
    p1.length = p2.length →
    (∀ pr ∈ p1.zip p2, versionRelated pr.1 pr.2) →
    ∀ {md1 md2 : Metadata}, md1.templates = md2.templates →
      (p1.foldl headerStep md1).templates
        = (p2.foldl headerStep md2).templates := by
  intro p1
  induction p1 with
  | nil =>
    intro p2 hlen _ md1 md2 h
    rw [List.eq_nil_of_length_eq_zero hlen.symm]
    exact h
  | cons a t ih =>
    intro p2 hlen hrel md1 md2 h
    cases p2 with
    | nil => simp at hlen
    | cons b tb =>
      have hhead : versionRelated a b := hrel (a, b) (by
        rw [List.zip_cons_cons]
        exact List.mem_cons_self _ _)
      have htail : ∀ pr ∈ t.zip tb, versionRelated pr.1 pr.2 := fun pr hpr =>
        hrel pr (by
          rw [List.zip_cons_cons]
          exact List.mem_cons_of_mem _ hpr)
      show (t.foldl headerStep (headerStep md1 a)).templates
        = (tb.foldl headerStep (headerStep md2 b)).templates
      refine ih tb (by simpa using hlen) htail ?_
      rcases hhead with rfl | ⟨h1, h2⟩
      · exact headerStep_templates_congr h a
      · rw [headerStep_version_line h1, headerStep_version_line h2]
        exact h

/-- C10 amended: the rewrite output is independent of the values of the
`#version=` comment lines *located before the header row*: if two documents
share the lines from the header row on and their earlier lines are pairwise
equal or both `#version=` lines, the rewrite outputs are identical (the
parsed version is never written into the output). -/
theorem claim10_amended (p1 p2 suffix : List (List Char))
    (hlen : p1.length = p2.length)
    (hrel : ∀ pr ∈ p1.zip p2, versionRelated pr.1 pr.2)
    (hskip : ∀ l ∈ p1, isHeaderLine l = false) :
    update_tsv_lines (p1 ++ suffix) = update_tsv_lines (p2 ++ suffix) := by
  have hskip2 : ∀ l ∈ p2, isHeaderLine l = false :=
    skip_of_versionRelated p1 p2 hlen hrel hskip
  have hfind1 := findHeaderRow_append_skip hskip suffix 0
  have hfind2 := findHeaderRow_append_skip hskip2 suffix 0
  cases hbase : findHeaderRow suffix 0 with
  | none =>
    have h1 : findHeaderRow (p1 ++ suffix) 0 = none := by
      rw [hfind1, findHeaderRow_shift, hbase]
      rfl
    have h2 : findHeaderRow (p2 ++ suffix) 0 = none := by
      rw [hfind2, findHeaderRow_shift, hbase]
      rfl
    rw [update_tsv_lines_eq_none h1, update_tsv_lines_eq_none h2]
  | some pr =>
    obtain ⟨j, hl⟩ := pr
    have h1 : findHeaderRow (p1 ++ suffix) 0 = some (j + (0 + p1.length), hl) := by
      rw [hfind1, findHeaderRow_shift, hbase]
      rfl
    have h2 : findHeaderRow (p2 ++ suffix) 0 = some (j + (0 + p1.length), hl) := by
      rw [hfind2, findHeaderRow_shift, hbase, hlen]
      rfl
    rw [update_tsv_lines_eq_some h1, update_tsv_lines_eq_some h2]
    have hmd : (parse_headers_lines (p1 ++ suffix)).templates
        = (parse_headers_lines (p2 ++ suffix)).templates := by
      show ((p1 ++ suffix).foldl headerStep defaultMetadata).templates
        = ((p2 ++ suffix).foldl headerStep defaultMetadata).templates
      rw [List.foldl_append, List.foldl_append]
      exact foldl_headerStep_templates_congr suffix
        (foldl_templates_of_versionRelated p1 p2 hlen hrel rfl)
    have hnh : newHeader (p1 ++ suffix) hl = newHeader (p2 ++ suffix) hl := by
      unfold newHeader
      rw [buildColumns_templates_congr _ hmd]
    have hdrop_eq1 : j + (0 + p1.length) + 1 = p1.length + (j + 1) := by omega
    have hdrop_eq2 : j + (0 + p1.length) + 1 = p2.length + (j + 1) := by omega
    have hd1 : (p1 ++ suffix).drop (j + (0 + p1.length) + 1)
        = suffix.drop (j + 1) := by
      rw [hdrop_eq1, List.drop_append]
    have hd2 : (p2 ++ suffix).drop (j + (0 + p1.length) + 1)
        = suffix.drop (j + 1) := by
      rw [hdrop_eq2, List.drop_append]
    rw [hnh, hd1, hd2]

/-- Witness for C10 amended: `#version=1` and `#version=2` before the header
row `a` produce the same rewrite. -/
theorem claim10_amended_witness :
    update_tsv_lines (["#version=1".data] ++ ["a".data])
      = update_tsv_lines (["#version=2".data] ++ ["a".data]) :=
  claim10_amended ["#version=1".data] ["#version=2".data] ["a".data]
    (by decide) (by decide) (by decide)

end SdrfTemplates
